import Mathlib

/-!
Verification of the sekejap embedded multi-model database against its
specification.  The Rust source is shallowly embedded: machine integers are
modelled as `Nat` (with explicit `% 2^w` where wrap-around matters), `f32`/`f64`
payload arithmetic as `ℚ`, fallible operations as `Option`/`Except`, and the
mmap-backed stores as explicit functional state.  External crates (seahash,
serde_json, crc32fast, DefaultHasher) are abstracted as parameters: operations
take the already-hashed/parsed data that the crate would produce, since no
verified property depends on the internals of those crates.
-/

set_option maxRecDepth 4000

namespace Sekejap

/-- `u64::MAX`, the tombstone sentinel key of the mmap hash index. -/
def U64MAX : ℕ := 2 ^ 64 - 1

/-- `u32::MAX`, the "no vector" sentinel of `NodeSlot.vec_slot`. -/
def U32MAX : ℕ := 2 ^ 32 - 1

/-! ## MmapHashIndex (src/mmap_hash.rs)

Robin-Hood open-addressing hash table.  A slot is 16 bytes
`{key:u64, value:u32, probe_dist:u32}`; `key == 0` is empty and
`key == u64::MAX` is a tombstone.  The mmap byte array is modelled as the
list of decoded slots; `capacity` is a power of two, so the Rust
`key & (capacity-1)` bit-mask is `key % capacity` here. -/

structure HashSlot where
  key : ℕ
  value : ℕ
  probeDist : ℕ
  deriving Repr, DecidableEq

/-- The all-zero slot a fresh file decodes to (`key == 0` → empty). -/
def emptySlot : HashSlot := ⟨0, 0, 0⟩

structure MHash where
  capacity : ℕ
  slots : List HashSlot
  count : ℕ
  deriving Repr, DecidableEq

/-- Doubling loop behind `nextPow2`; 64 doublings cover the whole `u64` range. -/
def nextPow2Aux (n : ℕ) : ℕ → ℕ → ℕ
  | 0, acc => acc
  | fuel + 1, acc => if n ≤ acc then acc else nextPow2Aux n fuel (2 * acc)

/-- Rust `u64::next_power_of_two`: the least power of two that is ≥ `n`
(0 and 1 both map to 1). -/
def nextPow2 (n : ℕ) : ℕ := nextPow2Aux n 64 1

/-- `MmapHashIndex::new`: inflate the requested capacity by `1/0.65` (ceil),
floor at 16, round up to a power of two, and start from an all-empty slot
array.  `ceil(cap / 0.65)` is computed exactly as `(cap * 20 + 12) / 13`; the
source's `f64` division agrees with the exact value for every realistic
capacity (the rounding error is far below the 1/13 gap to the next integer). -/
def mhNew (cap : ℕ) : MHash :=
  let inflated := max ((cap * 20 + 12) / 13) 16
  let c := nextPow2 inflated
  ⟨c, List.replicate c emptySlot, 0⟩

/-- `read_slot` (out-of-range reads cannot happen for in-capacity positions). -/
def slotAt (t : MHash) (pos : ℕ) : HashSlot := t.slots.getD pos emptySlot

/-- `write_slot`. -/
def writeSlot (t : MHash) (pos : ℕ) (s : HashSlot) : MHash :=
  { t with slots := t.slots.set pos s }

/-- Probe loop of `MmapHashIndex::get`.  The source loop has no bound; callers
pass `fuel = capacity`, which covers every table reachable through the public
API (the probe stops at an empty slot or at a slot whose `probe_dist` is below
the running probe distance). -/
def mhGetAux (t : MHash) (key : ℕ) : ℕ → ℕ → ℕ → Option ℕ
  | 0, _, _ => none
  | fuel + 1, pos, pd =>
    let s := slotAt t pos
    if s.key = 0 then none
    else if s.key = key then some s.value
    else if s.probeDist < pd then none
    else mhGetAux t key fuel ((pos + 1) % t.capacity) (pd + 1)

/-- `MmapHashIndex::get`. -/
def mhGet (t : MHash) (key : ℕ) : Option ℕ :=
  if key = 0 ∨ key = U64MAX then none
  else mhGetAux t key t.capacity (key % t.capacity) 0

/-- Probe loop of `MmapHashIndex::insert`.  `none` models the "table full"
panic (probe distance reached capacity) as well as fuel exhaustion; the fuel
passed by `mhInsert` dominates every non-panicking execution of the source
loop.  The loop state is `(pos, incoming, countBumped)` exactly as in the
source. -/
def mhInsertAux (t : MHash) : ℕ → ℕ → HashSlot → Bool → Option MHash
  | 0, _, _, _ => none
  | fuel + 1, pos, incoming, countBumped =>
    let s := slotAt t pos
    if s.key = 0 ∨ s.key = U64MAX then
      -- empty or tombstone: place here, bump live count unless already done
      let t1 := writeSlot t pos incoming
      if countBumped then some t1 else some { t1 with count := t1.count + 1 }
    else if s.key = incoming.key then
      -- same key: update the value in place (both source sub-branches agree)
      some (writeSlot t pos { s with value := incoming.value })
    else
      -- Robin Hood steal when the incoming record is poorer than the occupant
      let st :=
        if s.probeDist < incoming.probeDist then
          (writeSlot t pos incoming,
           if countBumped then (writeSlot t pos incoming).count
           else (writeSlot t pos incoming).count + 1, s, true)
        else (t, t.count, incoming, countBumped)
      let t2 : MHash := { st.1 with count := st.2.1 }
      let inc : HashSlot := st.2.2.1
      if t.capacity ≤ inc.probeDist then none  -- table-full panic guard
      else
        mhInsertAux t2 fuel ((pos + 1) % t.capacity)
          { inc with probeDist := inc.probeDist + 1 } st.2.2.2

/-- `MmapHashIndex::insert` (`none` = the table-full panic). -/
def mhInsert (t : MHash) (key value : ℕ) : Option MHash :=
  if key = 0 ∨ key = U64MAX then some t
  else
    mhInsertAux t (t.capacity * t.capacity + t.capacity + 1) (key % t.capacity)
      ⟨key, value, 0⟩ false

/-- Probe loop of `MmapHashIndex::remove`; same termination discipline as
`mhGetAux` (fuel = capacity covers every reachable table). -/
def mhRemoveAux (t : MHash) (key : ℕ) : ℕ → ℕ → ℕ → MHash
  | 0, _, _ => t
  | fuel + 1, pos, pd =>
    let s := slotAt t pos
    if s.key = 0 then t
    else if s.key = key then
      { writeSlot t pos ⟨U64MAX, 0, 0⟩ with count := t.count - 1 }
    else if s.probeDist < pd then t
    else mhRemoveAux t key fuel ((pos + 1) % t.capacity) (pd + 1)

/-- `MmapHashIndex::remove`. -/
def mhRemove (t : MHash) (key : ℕ) : MHash :=
  if key = 0 ∨ key = U64MAX then t
  else mhRemoveAux t key t.capacity (key % t.capacity) 0

/-! ## BlobArena (src/arena.rs)

Memory-mapped bump allocator.  The mapped byte content is irrelevant to every
claim, so the state keeps the mapped size, the atomic `write_offset` and the
durable committed offset.  `append` has no bounds check and cannot fail: it
reserves bytes with a wrapping `fetch_add` and copies unconditionally. -/

structure BlobState where
  sizeBytes : ℕ
  writeOffset : ℕ
  committed : ℕ
  deriving Repr, DecidableEq

/-- `BlobArena::append`: `len = data.len() as u32`, the old `write_offset` is
returned as the reservation, the head advances by `len` (wrapping `u64`
arithmetic), and `(offset, len)` is handed back.  The byte copy itself writes
`data.len()` bytes at positions `offset .. offset + data.len()`. -/
def blobAppend (st : BlobState) (data : List ℕ) : (ℕ × ℕ) × BlobState :=
  let len := data.length % 2 ^ 32
  let offset := st.writeOffset
  ((offset, len), { st with writeOffset := (st.writeOffset + len) % 2 ^ 64 })

/-- `BlobArena::commit`: publish the current write offset as durable. -/
def blobCommit (st : BlobState) : BlobState := { st with committed := st.writeOffset }

/-! ## `repr(C)` struct layout (src/types.rs)

Rust's `repr(C)` layout algorithm: fields are laid out in declaration order,
each at the next offset aligned to the field's alignment; the struct size is
the end offset rounded up to the struct alignment (the maximum field
alignment). -/

/-- Round `o` up to the next multiple of `a`. -/
def alignUp (o a : ℕ) : ℕ := if a = 0 then o else ((o + a - 1) / a) * a

/-- `repr(C)` size of a struct given its fields as `(size, align)` pairs in
declaration order. -/
def reprCSize (fields : List (ℕ × ℕ)) : ℕ :=
  let fin := fields.foldl (fun (acc : ℕ × ℕ) f => (alignUp acc.1 f.2 + f.1, max acc.2 f.2)) (0, 1)
  alignUp fin.1 fin.2

/-- The declared fields of `NodeSlot` (src/types.rs lines 4-19) as
`(size, align)` pairs: `crc32:u32`, `slug_hash:u64`, `collection_hash:u64`,
`flags:u64`, `lat:f32`, `lon:f32`, `blob_offset:u64`, `blob_len:u32`,
`vec_slot:u32`, `edge_head:u32`, `edge_count:u32`, `_pad:[u64;7]`. -/
def nodeSlotFields : List (ℕ × ℕ) :=
  [(4, 4), (8, 8), (8, 8), (8, 8), (4, 4), (4, 4), (8, 8), (4, 4), (4, 4),
   (4, 4), (4, 4), (8 * 7, 8)]

/-! ## Payload values

Pipeline filters compare free-form `serde_json::Value`s for equality and
extract `f64` numbers.  Numbers are modelled over `ℚ`; composite values
(arrays/objects), which the engine only ever compares for equality, are
abstracted to an opaque token. -/

inductive Json where
  | jnull
  | jbool (b : Bool)
  | jnum (q : ℚ)
  | jstr (s : String)
  | jother (tag : ℕ)
  deriving Repr, DecidableEq

/-- `serde_json::Value::as_f64` (numbers only). -/
def jsonAsF64 : Json → Option ℚ
  | .jnum q => some q
  | _ => none

/-! ## Record types (src/types.rs) -/

/-- In-memory view of a `NodeSlot` (the on-disk layout itself is handled by
`nodeSlotFields`/`reprCSize`).  `Default` zero-fills every field. -/
structure NodeSlot where
  crc32 : ℕ := 0
  slugHash : ℕ := 0
  collectionHash : ℕ := 0
  flags : ℕ := 0
  lat : ℚ := 0
  lon : ℚ := 0
  blobOffset : ℕ := 0
  blobLen : ℕ := 0
  vecSlot : ℕ := 0
  edgeHead : ℕ := 0
  edgeCount : ℕ := 0
  deriving Repr, DecidableEq

instance : Inhabited NodeSlot := ⟨{}⟩

structure EdgeSlot where
  fromNode : ℕ := 0
  toNode : ℕ := 0
  weight : ℚ := 0
  edgeTypeHash : ℕ := 0
  timestamp : ℕ := 0
  flags : ℕ := 0
  metaKind : ℕ := 0
  metaLen : ℕ := 0
  meta : List ℕ := List.replicate 32 0
  deriving Repr, DecidableEq

instance : Inhabited EdgeSlot := ⟨{}⟩

/-! ## Association-list helpers

`DashMap`s are modelled as association lists (iteration order is never
observed by any claim; per-key get/set semantics are what matters). -/

def assocGet {α β : Type} [DecidableEq α] (l : List (α × β)) (k : α) : Option β :=
  match l with
  | [] => none
  | (a, b) :: r => if a = k then some b else assocGet r k

def assocSet {α β : Type} [DecidableEq α] (l : List (α × β)) (k : α) (v : β) :
    List (α × β) :=
  match l with
  | [] => [(k, v)]
  | (a, b) :: r => if a = k then (k, v) :: r else (a, b) :: assocSet r k v

def assocRemove {α β : Type} [DecidableEq α] (l : List (α × β)) (k : α) :
    List (α × β) :=
  match l with
  | [] => []
  | (a, b) :: r => if a = k then r else (a, b) :: assocRemove r k

/-! ## Field indexes (src/index/hash_index.rs, src/index/range_index.rs)

`HashIndex` buckets are keyed by the `DefaultHasher` image of the JSON value;
the hasher is abstracted as the identity on values (a collision-free hash),
which no claim distinguishes from the real one. -/

structure HIdx where
  index : List (Json × List ℕ)
  reverse : List (ℕ × Json)
  deriving DecidableEq

/-- `Vec::swap_remove` at `pos`: replace with the last element and pop. -/
def swapRemove (l : List ℕ) (pos : ℕ) : List ℕ :=
  if pos + 1 = l.length then l.dropLast
  else if pos < l.length then (l.set pos (l.getD (l.length - 1) 0)).dropLast
  else l

/-- `HashIndex::remove`. -/
def hIdxRemove (h : HIdx) (idx : ℕ) : HIdx :=
  match assocGet h.reverse idx with
  | none => h
  | some v =>
    let rev := assocRemove h.reverse idx
    match assocGet h.index v with
    | none => { h with reverse := rev }
    | some nodes =>
      let nodes1 :=
        match nodes.findIdx? (fun x => x = idx) with
        | some pos => swapRemove nodes pos
        | none => nodes
      if nodes1 = [] then { index := assocRemove h.index v, reverse := rev }
      else { index := assocSet h.index v nodes1, reverse := rev }

/-- `HashIndex::insert` (remove the old entry, push into the bucket, record
the reverse mapping). -/
def hIdxInsert (h : HIdx) (idx : ℕ) (v : Json) : HIdx :=
  let h1 := hIdxRemove h idx
  let bucket := (assocGet h1.index v).getD [] ++ [idx]
  { index := assocSet h1.index v bucket, reverse := assocSet h1.reverse idx v }

structure RIdx where
  data : List (ℚ × ℕ)
  reverse : List (ℕ × ℕ)
  deriving DecidableEq

/-- `RangeIndex::remove`: look up the position hint in the reverse index,
fall back to a linear scan when the hint is stale. -/
def rIdxRemove (r : RIdx) (idx : ℕ) : RIdx :=
  match assocGet r.reverse idx with
  | none => r
  | some dataPos =>
    let d :=
      if dataPos < r.data.length ∧ (r.data.getD dataPos (0, 0)).2 = idx then
        r.data.eraseIdx dataPos
      else
        match r.data.findIdx? (fun e => e.2 = idx) with
        | some p => r.data.eraseIdx p
        | none => r.data
    { data := d, reverse := assocRemove r.reverse idx }

/-- Insert into the reverse list keeping it sorted by node index
(`rev.push` + `sort_by_key`, which is stable). -/
def revInsertSorted (l : List (ℕ × ℕ)) (p : ℕ × ℕ) : List (ℕ × ℕ) :=
  match l with
  | [] => [p]
  | q :: r => if p.1 < q.1 then p :: q :: r else q :: revInsertSorted r p

/-- `RangeIndex::insert` on an `f64` value: remove the old entry, insert at
the binary-search position in the sorted data array (modelled as the first
position whose value is not below the new one), push + re-sort the reverse
hints. -/
def rIdxInsert (r : RIdx) (idx : ℕ) (q : ℚ) : RIdx :=
  let r1 := rIdxRemove r idx
  let pos := (r1.data.takeWhile (fun e => e.1 < q)).length
  { data := r1.data.insertIdx pos (q, idx),
    reverse := revInsertSorted r1.reverse (idx, pos) }

/-! ## Engine state and mutation paths (src/db.rs)

`SekejapDB` as touched by the write/delete/link/unlink paths.  Slug and
collection hashes (`seahash` of the slug text) and parsed payload data enter
as operation inputs; the vector arena's contents and the HNSW graph are not
modelled (no claim concerns them — `write` only consults the vector capacity
guard, which is preserved here). -/

structure DBState where
  nodes : List NodeSlot
  nodesCommitted : ℕ
  edges : List EdgeSlot
  edgesCommitted : ℕ
  blob : BlobState
  slugIndex : MHash
  adjFwd : List (ℕ × List ℕ)
  adjRev : List (ℕ × List ℕ)
  collCounts : List (ℕ × ℕ)
  collBitmaps : List (ℕ × Finset ℕ)
  spatial : List (ℕ × ℚ × ℚ)
  fieldHash : List (String × HIdx)
  fieldRange : List (String × RIdx)
  vecCapacity : ℕ
  hnswActive : Bool
  timestamp : ℕ
  deriving DecidableEq

/-- `SekejapDB::new` (fresh directory): empty arenas, slug index sized at
`max(count, 1024)`; the vector arena is empty until `init_hnsw`. -/
def mkDB (count ts : ℕ) : DBState :=
  { nodes := [], nodesCommitted := 0, edges := [], edgesCommitted := 0,
    blob := ⟨(max ((count * 200) / (1024 * 1024)) 128) * 1024 * 1024, 64, 64⟩,
    slugIndex := mhNew (max count 1024),
    adjFwd := [], adjRev := [], collCounts := [], collBitmaps := [],
    spatial := [], fieldHash := [], fieldRange := [],
    vecCapacity := 0, hnswActive := false, timestamp := ts }

/-- `CollectionBitmapIndex::insert` (`entry().or_default()` then bitmap
insert; the dirty flag is not observed by any claim). -/
def cbInsert (l : List (ℕ × Finset ℕ)) (h idx : ℕ) : List (ℕ × Finset ℕ) :=
  assocSet l h (insert idx ((assocGet l h).getD ∅))

/-- `CollectionBitmapIndex::remove`.  The disk-load fallback is modelled as a
miss: in a state reachable without a reopen every previously inserted
collection is cached in memory. -/
def cbRemove (l : List (ℕ × Finset ℕ)) (h idx : ℕ) : List (ℕ × Finset ℕ) :=
  match assocGet l h with
  | some bm => assocSet l h (bm.erase idx)
  | none => l

/-- Inputs of a single-item write, carrying what the engine derives from the
slug and the parsed JSON payload before touching any store: the seahash of
the slug and of its collection prefix, extracted coordinates, the serialized
payload (abstracted to length and crc), vector presence, and the per-field
payload projection used by the field-index loops. -/
structure WriteIn where
  slugHash : ℕ
  collectionHash : ℕ
  lat : ℚ := 0
  lon : ℚ := 0
  payloadLen : ℕ := 0
  crc : ℕ := 0
  hasVec : Bool := false
  fieldVal : String → Option Json := fun _ => none

/-- `SekejapDB::write_with_value` (single-item write path).  `none` is the
slug-index table-full panic.  Steps in source order: blob append, node-slot
reservation + write, optional vector write (arena content unmodelled), slug
index insert, collection bitmap, spatial insert, collection count, field
indexes, then the node and blob commits. -/
def writeNode (st : DBState) (w : WriteIn) : Option (ℕ × DBState) :=
  let app := blobAppend st.blob (List.replicate w.payloadLen 0)
  let nIdx := st.nodes.length
  let slot : NodeSlot :=
    { crc32 := w.crc, slugHash := w.slugHash, collectionHash := w.collectionHash,
      flags := 1, lat := w.lat, lon := w.lon,
      blobOffset := app.1.1, blobLen := app.1.2,
      vecSlot := if w.hasVec then nIdx % 2 ^ 32 else U32MAX }
  match mhInsert st.slugIndex w.slugHash (nIdx % 2 ^ 32) with
  | none => none
  | some si =>
    some (nIdx,
      { st with
        nodes := st.nodes ++ [slot],
        nodesCommitted := nIdx + 1,
        blob := blobCommit app.2,
        slugIndex := si,
        collBitmaps := cbInsert st.collBitmaps w.collectionHash nIdx,
        spatial :=
          if w.lat ≠ 0 ∨ w.lon ≠ 0 then st.spatial ++ [(nIdx, w.lat, w.lon)]
          else st.spatial,
        collCounts :=
          assocSet st.collCounts w.collectionHash
            (((assocGet st.collCounts w.collectionHash).getD 0 + 1) % 2 ^ 64),
        fieldHash := st.fieldHash.map (fun p =>
          (p.1, match w.fieldVal p.1 with
                | some v => hIdxInsert p.2 nIdx v
                | none => p.2)),
        fieldRange := st.fieldRange.map (fun p =>
          (p.1, match (w.fieldVal p.1).bind jsonAsF64 with
                | some q => rIdxInsert p.2 nIdx q
                | none => p.2)) })

/-- `SekejapDB::delete_internal`.  An absent slug is a silent no-op; an
existing one is tombstoned (flags := 0), the collection count decremented
(wrapping `usize` sub), the bitmap and field-index entries removed, and the
slug-index entry tombstoned.  Always returns `Ok(())`. -/
def deleteNode (st : DBState) (slugHash : ℕ) : Except String Unit × DBState :=
  match mhGet st.slugIndex slugHash with
  | none => (.ok (), st)
  | some idx =>
    let slot := st.nodes.getD idx {}
    let ch := slot.collectionHash
    (.ok (),
      { st with
        nodes := st.nodes.set idx { slot with flags := 0 },
        collCounts :=
          match assocGet st.collCounts ch with
          | some v => assocSet st.collCounts ch ((v + (2 ^ 64 - 1)) % 2 ^ 64)
          | none => st.collCounts,
        collBitmaps := cbRemove st.collBitmaps ch idx,
        fieldHash := st.fieldHash.map (fun p => (p.1, hIdxRemove p.2 idx)),
        fieldRange := st.fieldRange.map (fun p => (p.1, rIdxRemove p.2 idx)),
        slugIndex := mhRemove st.slugIndex slugHash })

/-- `SekejapDB::add_edge_internal`.  Both endpoint lookups happen before the
edge-slot reservation; a miss returns the error with nothing mutated. -/
def addEdge (st : DBState) (srcHash dstHash : ℕ) (weight : ℚ) (typeHash : ℕ) :
    Except String Unit × DBState :=
  match mhGet st.slugIndex srcHash with
  | none => (.error "Source not found", st)
  | some srcIdx =>
    match mhGet st.slugIndex dstHash with
    | none => (.error "Target not found", st)
    | some dstIdx =>
      let eIdx := st.edges.length
      let edge : EdgeSlot :=
        { fromNode := srcIdx, toNode := dstIdx, weight := weight,
          edgeTypeHash := typeHash, timestamp := st.timestamp, flags := 1 }
      (.ok (),
        { st with
          edges := st.edges ++ [edge],
          edgesCommitted := eIdx + 1,
          adjFwd := assocSet st.adjFwd srcIdx
            ((assocGet st.adjFwd srcIdx).getD [] ++ [eIdx]),
          adjRev := assocSet st.adjRev dstIdx
            ((assocGet st.adjRev dstIdx).getD [] ++ [eIdx]) })

/-- The predicate `delete_edge_internal` scans `adj_fwd[src]` with: matching
target, matching type, still active. -/
def edgeMatches (edges : List EdgeSlot) (dstIdx typeHash e : ℕ) : Bool :=
  let ed := edges.getD e {}
  ed.toNode = dstIdx ∧ ed.edgeTypeHash = typeHash ∧ ed.flags ≠ 0

/-- `SekejapDB::delete_edge_internal`: resolve both endpoints (error on a
miss), then tombstone the first matching active edge of `adj_fwd[src]`, if
any; the adjacency maps are left untouched. -/
def deleteEdge (st : DBState) (srcHash dstHash typeHash : ℕ) :
    Except String Unit × DBState :=
  match mhGet st.slugIndex srcHash with
  | none => (.error "Source not found", st)
  | some srcIdx =>
    match mhGet st.slugIndex dstHash with
    | none => (.error "Target not found", st)
    | some dstIdx =>
      let edges1 :=
        match assocGet st.adjFwd srcIdx with
        | none => st.edges
        | some lst =>
          match lst.find? (edgeMatches st.edges dstIdx typeHash) with
          | none => st.edges
          | some e => st.edges.set e { st.edges.getD e {} with flags := 0 }
      (.ok (), { st with edges := edges1 })

/-! ## Graph traversal (src/set.rs, `bfs_forward` / `bfs_backward`)

Roaring bitmaps are modelled as `Finset ℕ` (iteration is in ascending order,
`Finset.sort (· ≤ ·)`).  The forward and backward walks differ only in the
adjacency map and in which endpoint of a matching edge is inserted, so the
loop is written once over a target extractor `tgt`; `bfs_forward` is the
instance `tgt = toNode` over `adj_fwd` and `bfs_backward` the instance
`tgt = fromNode` over `adj_rev`. -/

/-- Inner edge loop of one frontier node `i`: the targets of its edges whose
type matches and whose flags word is nonzero and that are not yet visited. -/
def matchTargets (adj : ℕ → List ℕ) (edgeAt : ℕ → EdgeSlot) (tgt : EdgeSlot → ℕ)
    (t : ℕ) (vis : Finset ℕ) (i : ℕ) : Finset ℕ :=
  ((adj i).filterMap (fun e =>
    if (edgeAt e).edgeTypeHash = t ∧ (edgeAt e).flags ≠ 0 ∧ tgt (edgeAt e) ∉ vis
    then some (tgt (edgeAt e)) else none)).toFinset

/-- One frontier level: every frontier node is marked visited, then its
unvisited matching targets are added to the next frontier. -/
def levelExpand (adj : ℕ → List ℕ) (edgeAt : ℕ → EdgeSlot) (tgt : EdgeSlot → ℕ)
    (t : ℕ) : List ℕ → Finset ℕ → Finset ℕ → Finset ℕ × Finset ℕ
  | [], vis, nf => (vis, nf)
  | i :: rest, vis, nf =>
    let vis1 := insert i vis
    levelExpand adj edgeAt tgt t rest vis1
      (nf ∪ matchTargets adj edgeAt tgt t vis1 i)

/-- The `for _ in 0..max_hops` loop; at exit `visited |= frontier`. -/
def bfsLoop (adj : ℕ → List ℕ) (edgeAt : ℕ → EdgeSlot) (tgt : EdgeSlot → ℕ)
    (t : ℕ) : ℕ → Finset ℕ → Finset ℕ → Finset ℕ
  | 0, vis, fr => vis ∪ fr
  | h + 1, vis, fr =>
    if fr = ∅ then vis ∪ fr
    else
      let p := levelExpand adj edgeAt tgt t (fr.sort (· ≤ ·)) vis ∅
      bfsLoop adj edgeAt tgt t h p.1 p.2

/-- `Set::bfs_forward` / `Set::bfs_backward` (choose `tgt`): start from the
candidate set (empty when `None`), expand `maxHops` levels. -/
def bfsTraverse (adj : ℕ → List ℕ) (edgeAt : ℕ → EdgeSlot) (tgt : EdgeSlot → ℕ)
    (t : ℕ) (cand : Option (Finset ℕ)) (maxHops : ℕ) : Finset ℕ :=
  bfsLoop adj edgeAt tgt t maxHops ∅ (cand.getD ∅)

/-! Spec-side reachability, phrased after the claim: "the union of S and every
node reachable from S in at most h hops by following edges whose
edge_type_hash matches and whose flags word is nonzero". -/

/-- All matching active-edge targets of node `i` (no visited filter). -/
def specNbrs (adj : ℕ → List ℕ) (edgeAt : ℕ → EdgeSlot) (tgt : EdgeSlot → ℕ)
    (t : ℕ) (i : ℕ) : Finset ℕ :=
  ((adj i).filterMap (fun e =>
    if (edgeAt e).edgeTypeHash = t ∧ (edgeAt e).flags ≠ 0 then some (tgt (edgeAt e))
    else none)).toFinset

/-- One hop of reachability: `S` together with every matching target of `S`. -/
def expandOnce (adj : ℕ → List ℕ) (edgeAt : ℕ → EdgeSlot) (tgt : EdgeSlot → ℕ)
    (t : ℕ) (s : Finset ℕ) : Finset ℕ :=
  s ∪ s.biUnion (specNbrs adj edgeAt tgt t)

/-- The union of `S` and every node reachable from `S` in at most `h` hops
over matching active edges (the claim's wording, by iterating single hops). -/
def hopClosure (adj : ℕ → List ℕ) (edgeAt : ℕ → EdgeSlot) (tgt : EdgeSlot → ℕ)
    (t : ℕ) : ℕ → Finset ℕ → Finset ℕ
  | 0, s => s
  | h + 1, s => hopClosure adj edgeAt tgt t h (expandOnce adj edgeAt tgt t s)

/-! ## Pipeline executor (src/set.rs, `Set::execute_pipeline`)

The read-only view of `SekejapDB` that the executor consults.  Secondary
structures whose internals no claim exercises enter as query functions:
`hashIdx`/`rangeIdx` are the registered field indexes (`None` = no index for
that field, forcing the payload-scan fallback), `spatialWithin` is the
R-tree `locate_within_distance`, `hnsw` the ANN search and `fulltext` the
adapter.  `payloadOf` combines `blobs.read` and `serde_json::from_slice`
(`None` = parse failure). -/

structure QueryDB where
  nodeCount : ℕ
  nodeAt : ℕ → NodeSlot
  payloadOf : ℕ → Option (String → Option Json)
  slugGet : ℕ → Option ℕ
  collSnap : ℕ → Finset ℕ
  adjFwd : ℕ → List ℕ
  adjRev : ℕ → List ℕ
  edgeAt : ℕ → EdgeSlot
  hashIdx : String → Option (Json → List ℕ)
  rangeIdx : String → Option (ℚ → ℚ → List ℕ)
  spatialWithin : ℚ → ℚ → ℚ → Finset ℕ
  hnsw : Option (List ℚ → ℕ → List ℕ)
  fulltext : Option (String → List ℕ)

/-- The step algebra (src/types.rs `enum Step`). -/
inductive Step where
  | One (slugHash : ℕ)
  | Many (hashes : List ℕ)
  | Collection (h : ℕ)
  | All
  | Forward (t : ℕ)
  | Backward (t : ℕ)
  | ForwardParallel (t : ℕ)
  | BackwardParallel (t : ℕ)
  | Hops (n : ℕ)
  | Leaves
  | Roots
  | Near (lat lon radius : ℚ)
  | Similar (q : List ℚ) (k : ℕ)
  | Matching (text : String)
  | WhereEq (field : String) (v : Json)
  | WhereBetween (field : String) (lo hi : ℚ)
  | WhereGt (field : String) (x : ℚ)
  | WhereLt (field : String) (x : ℚ)
  | WhereGte (field : String) (x : ℚ)
  | WhereLte (field : String) (x : ℚ)
  | WhereIn (field : String) (vs : List Json)
  | Intersect (sub : List Step)
  | Union (sub : List Step)
  | Subtract (sub : List Step)
  | Sort (field : String) (asc : Bool)
  | Skip (n : ℕ)
  | Select (fields : List String)
  | Take (n : ℕ)
  deriving Repr

/-- Executor state: the candidate bitmap (`None` before a starter) and the
pending `Hops` modifier. -/
structure ExecSt where
  cand : Option (Finset ℕ)
  pending : Option ℕ
  deriving DecidableEq

/-- `f64::EPSILON` = 2⁻⁵², used by the `WhereGt`/`WhereLt` range-index arms. -/
def f64eps : ℚ := 1 / 2 ^ 52

/-- `f64::MAX` = (2⁵³ − 1)·2⁹⁷¹. -/
def f64max : ℚ := (2 ^ 53 - 1) * 2 ^ 971

/-- `f64::MIN` = −`f64::MAX`. -/
def f64min : ℚ := -f64max

/-- `p` holds on the content of an optional value (`None` fails). -/
def optTest {α : Type} (p : α → Prop) : Option α → Prop
  | some v => p v
  | none => False

instance {α : Type} (p : α → Prop) [DecidablePred p] :
    DecidablePred (optTest p) := by
  intro o
  cases o with
  | none => exact inferInstanceAs (Decidable False)
  | some v => exact inferInstanceAs (Decidable (p v))

/-- `value.get(field)` through the parsed payload of node `idx`. -/
def fieldValOf (db : QueryDB) (idx : ℕ) (field : String) : Option Json :=
  match db.payloadOf idx with
  | some f => f field
  | none => none

/-- Payload-scan test shared by the `Where*` fallback arms: the slot must be
live, the payload must parse, and the named field must satisfy `p`. -/
def scanTest (db : QueryDB) (field : String) (p : Json → Prop)
    [DecidablePred p] (idx : ℕ) : Prop :=
  (db.nodeAt idx).flags ≠ 0 ∧ optTest p (fieldValOf db idx field)

instance (db : QueryDB) (field : String) (p : Json → Prop) [DecidablePred p] :
    DecidablePred (scanTest db field p) := by
  intro idx
  unfold scanTest
  infer_instance

/-- Numeric payload test (`as_f64` then `p`). -/
def numTest (p : ℚ → Prop) [DecidablePred p] (v : Json) : Prop :=
  optTest p (jsonAsF64 v)

instance (p : ℚ → Prop) [DecidablePred p] : DecidablePred (numTest p) := by
  intro v
  unfold numTest
  infer_instance

/-- Intersect with the current candidates when they exist, otherwise
establish them (the shared shape of index-backed search/filter arms). -/
def interOrSet (c : Option (Finset ℕ)) (bm : Finset ℕ) : Option (Finset ℕ) :=
  match c with
  | some cur => some (cur ∩ bm)
  | none => some bm

mutual

/-- `Set::execute_pipeline`, one step.  Trace recording and timing are pure
observability and are not modelled.  `Sort`/`Skip`/`Select` are no-ops at
bitmap level (they are extracted into side channels by `from_steps` and this
arm is the defensive no-op of the source); because they are no-ops, running a
sub-pipeline without the `from_steps` extraction yields the same bitmap. -/
def execStep (db : QueryDB) : Step → ExecSt → ExecSt
  | .One h, st =>
    { st with cand := some (match db.slugGet h with
        | some idx => {idx}
        | none => ∅) }
  | .Many hashes, st =>
    { st with cand := some (hashes.foldl (fun bm h =>
        match db.slugGet h with
        | some idx => insert idx bm
        | none => bm) ∅) }
  | .Collection h, st => { st with cand := interOrSet st.cand (db.collSnap h) }
  | .All, st =>
    { st with cand := some ((Finset.range db.nodeCount).filter
        fun i => (db.nodeAt i).flags ≠ 0) }
  | .Forward t, st =>
    { cand := some (bfsTraverse db.adjFwd db.edgeAt (fun e => e.toNode) t st.cand
        (st.pending.getD 1)), pending := none }
  | .Backward t, st =>
    { cand := some (bfsTraverse db.adjRev db.edgeAt (fun e => e.fromNode) t st.cand
        (st.pending.getD 1)), pending := none }
  | .ForwardParallel t, st =>
    -- without the `parallel` feature this falls back to the sequential walk;
    -- the rayon version computes the same per-level expansion fork/join
    { cand := some (bfsTraverse db.adjFwd db.edgeAt (fun e => e.toNode) t st.cand
        (st.pending.getD 1)), pending := none }
  | .BackwardParallel t, st =>
    { cand := some (bfsTraverse db.adjRev db.edgeAt (fun e => e.fromNode) t st.cand
        (st.pending.getD 1)), pending := none }
  | .Hops n, st => { st with pending := some n }
  | .Leaves, st =>
    { st with cand := st.cand.map (·.filter fun idx => db.adjFwd idx = []) }
  | .Roots, st =>
    { st with cand := st.cand.map (·.filter fun idx => db.adjRev idx = []) }
  | .Near lat lon radius, st =>
    let rSq := radius * radius
    match st.cand with
    | some cur =>
      if cur.card < 500 then
        { st with cand := some (cur.filter fun idx =>
            let s := db.nodeAt idx
            (s.lat - lat) * (s.lat - lat) + (s.lon - lon) * (s.lon - lon) ≤ rSq) }
      else { st with cand := some (cur ∩ db.spatialWithin lat lon rSq) }
    | none => { st with cand := some (db.spatialWithin lat lon rSq) }
  | .Similar q k, st =>
    let bm : Finset ℕ := match db.hnsw with
      | some search => (search q k).toFinset
      | none => ∅
    { st with cand := interOrSet st.cand bm }
  | .Matching text, st =>
    match db.fulltext with
    | none => st
    | some ft =>
      let bm := (ft text).foldl (fun bm h =>
        match db.slugGet h with
        | some idx => insert idx bm
        | none => bm) ∅
      { st with cand := interOrSet st.cand bm }
  | .WhereEq field v, st =>
    match db.hashIdx field with
    | some lk => { st with cand := interOrSet st.cand (lk v).toFinset }
    | none =>
      { st with cand := st.cand.map (·.filter (scanTest db field (· = v))) }
  | .WhereBetween field lo hi, st =>
    match db.rangeIdx field with
    | some lk => { st with cand := interOrSet st.cand (lk lo hi).toFinset }
    | none =>
      { st with cand :=
          st.cand.map (·.filter (scanTest db field (numTest fun q => lo ≤ q ∧ q ≤ hi))) }
  | .WhereGt field x, st =>
    match db.rangeIdx field with
    | some lk => { st with cand := interOrSet st.cand (lk (x + f64eps) f64max).toFinset }
    | none =>
      { st with cand := st.cand.map (·.filter (scanTest db field (numTest (x < ·)))) }
  | .WhereLt field x, st =>
    match db.rangeIdx field with
    | some lk => { st with cand := interOrSet st.cand (lk f64min (x - f64eps)).toFinset }
    | none =>
      { st with cand := st.cand.map (·.filter (scanTest db field (numTest (· < x)))) }
  | .WhereGte field x, st =>
    match db.rangeIdx field with
    | some lk => { st with cand := interOrSet st.cand (lk x f64max).toFinset }
    | none =>
      { st with cand := st.cand.map (·.filter (scanTest db field (numTest (x ≤ ·)))) }
  | .WhereLte field x, st =>
    match db.rangeIdx field with
    | some lk => { st with cand := interOrSet st.cand (lk f64min x).toFinset }
    | none =>
      { st with cand := st.cand.map (·.filter (scanTest db field (numTest (· ≤ x)))) }
  | .WhereIn field vs, st =>
    { st with cand := st.cand.map (·.filter (scanTest db field (· ∈ vs))) }
  | .Intersect sub, st =>
    { st with cand := interOrSet st.cand ((execSteps db sub ⟨none, none⟩).cand.getD ∅) }
  | .Union sub, st =>
    let other := (execSteps db sub ⟨none, none⟩).cand.getD ∅
    { st with cand := some (match st.cand with
        | some cur => cur ∪ other
        | none => other) }
  | .Subtract sub, st =>
    let other := (execSteps db sub ⟨none, none⟩).cand.getD ∅
    { st with cand := st.cand.map (· \ other) }
  | .Sort _ _, st => st
  | .Skip _, st => st
  | .Select _, st => st
  | .Take n, st =>
    { st with cand := st.cand.map (fun bm => ((bm.sort (· ≤ ·)).take n).toFinset) }

/-- Left-to-right execution of a step list. -/
def execSteps (db : QueryDB) : List Step → ExecSt → ExecSt
  | [], st => st
  | s :: rest, st => execSteps db rest (execStep db s st)

end

/-- The bitmap `execute_pipeline` returns: `candidates.unwrap_or_default()`. -/
def execPipeline (db : QueryDB) (steps : List Step) : Finset ℕ :=
  (execSteps db steps ⟨none, none⟩).cand.getD ∅

/-- The payload-filter steps of claim C6. -/
def isPayloadFilter : Step → Prop
  | .WhereEq _ _ => True
  | .WhereBetween _ _ _ => True
  | .WhereGt _ _ => True
  | .WhereLt _ _ => True
  | .WhereGte _ _ => True
  | .WhereLte _ _ => True
  | .WhereIn _ _ => True
  | _ => False

/-- Drop index `j` from every adjacency list (for stating that a tombstoned
edge's lingering adjacency entry is invisible to traversal). -/
def adjDrop (adj : ℕ → List ℕ) (j : ℕ) : ℕ → List ℕ :=
  fun i => (adj i).filter (fun e => e ≠ j)

/-! ## HNSW `search_layer` (src/hnsw/algo.rs)

Distances are `f32` values compared with `partial_cmp`; they are modelled
over `ℚ` (every comparison in the algorithm is a strict `<` on NaN-free
values).  `D::eval(query, storage.get(id))` only depends on the node id, so
it enters as `dist : ℕ → ℚ`; `graph.get_neighbors(id, layer)` as
`nbrs : ℕ → Option (List ℕ)`.  `std::collections::BinaryHeap` is embedded as
its backing `Vec` with the standard library's algorithms: `push` appends and
sifts up, `pop` swaps the last element into the root and runs
`sift_down_to_bottom`, and crucially `into_iter()` yields the *backing array
order*, not sorted order. -/

structure Cand where
  id : ℕ
  dist : ℚ
  deriving Repr, DecidableEq

instance : Inhabited Cand := ⟨⟨0, 0⟩⟩

/-- `Ord for Candidate`: ranks above iff strictly smaller distance
(that makes `BinaryHeap<Candidate>` a min-heap on distance). -/
def gtCand (a b : Cand) : Bool := a.dist < b.dist

/-- `Ord for ReverseCandidate`: ranks above iff strictly larger distance
(max-heap on distance). -/
def gtRev (a b : Cand) : Bool := b.dist < a.dist

/-- `BinaryHeap::sift_up` with a stopping bound `start` (the plain sift-up is
`start = 0`); fuel is the starting position plus one — the parent index
strictly decreases. -/
def siftUpB (gt : Cand → Cand → Bool) (start : ℕ) :
    ℕ → List Cand → ℕ → List Cand
  | 0, l, _ => l
  | fuel + 1, l, pos =>
    if pos ≤ start then l
    else
      let parent := (pos - 1) / 2
      let c := l.getD pos default
      let p := l.getD parent default
      if gt c p then siftUpB gt start fuel ((l.set pos p).set parent c) parent
      else l

/-- `BinaryHeap::push`: append, then sift the new element up. -/
def heapPush (gt : Cand → Cand → Bool) (l : List Cand) (x : Cand) : List Cand :=
  siftUpB gt 0 (l.length + 1) (l ++ [x]) l.length

/-- `BinaryHeap::peek` = the root of the backing array. -/
def heapPeek (l : List Cand) : Option Cand := l.head?

/-- Hole-walk phase of `sift_down_to_bottom`: move the greater child up into
the hole until the hole reaches the bottom; returns the array and the final
hole position. -/
def sdtbWalk (gt : Cand → Cand → Bool) : ℕ → List Cand → ℕ → List Cand × ℕ
  | 0, l, hole => (l, hole)
  | fuel + 1, l, hole =>
    let child := 2 * hole + 1
    if child + 2 ≤ l.length then
      let c := if gt (l.getD child default) (l.getD (child + 1) default) then child
               else child + 1
      sdtbWalk gt fuel (l.set hole (l.getD c default)) c
    else if child + 1 = l.length then (l.set hole (l.getD child default), child)
    else (l, hole)

/-- `BinaryHeap::sift_down_to_bottom(pos)`: walk the hole to the bottom, drop
the displaced value there, then sift it back up (bounded at `pos`). -/
def siftDownToBottom (gt : Cand → Cand → Bool) (l : List Cand) (pos : ℕ) :
    List Cand :=
  let v := l.getD pos default
  let w := sdtbWalk gt l.length l pos
  siftUpB gt pos (w.2 + 1) (w.1.set w.2 v) w.2

/-- `BinaryHeap::pop`: remove the last element; if the heap is still
nonempty, swap it into the root and sift down. -/
def heapPop (gt : Cand → Cand → Bool) (l : List Cand) :
    Option Cand × List Cand :=
  match l with
  | [] => (none, [])
  | _ :: _ =>
    let last := l.getD (l.length - 1) default
    let rest := l.dropLast
    if rest.isEmpty then (some last, [])
    else (some (rest.getD 0 default), siftDownToBottom gt (rest.set 0 last) 0)

/-- Neighbor expansion loop of `search_layer` over one popped node's neighbor
list, threading `(candidates, top_results, visited)`.  A neighbor enters both
heaps when `top_results.len() < ef` or it beats the current worst; the worst
is popped when the cap `ef` is exceeded. -/
def expandNbrs (dist : ℕ → ℚ) (ef : ℕ) :
    List ℕ → List Cand × List Cand × Finset ℕ → List Cand × List Cand × Finset ℕ
  | [], s => s
  | nb :: rest, (cands, top, vis) =>
    if nb ∈ vis then expandNbrs dist ef rest (cands, top, vis)
    else
      let vis1 := insert nb vis
      let d := dist nb
      if top.length < ef ∨ optTest (fun w : Cand => d < w.dist) (heapPeek top) then
        let c : Cand := ⟨nb, d⟩
        let cands1 := heapPush gtCand cands c
        let top1 := heapPush gtRev top c
        let top2 := if ef < top1.length then (heapPop gtRev top1).2 else top1
        expandNbrs dist ef rest (cands1, top2, vis1)
      else expandNbrs dist ef rest (cands, top, vis1)

/-- The `while let Some(current) = candidates.pop()` loop of `search_layer`.
The source loop terminates on every finite graph (each node is pushed at most
once); `fuel` makes that explicit, and the stated theorems hold for every
fuel. -/
def searchLoop (dist : ℕ → ℚ) (nbrs : ℕ → Option (List ℕ)) (ef : ℕ) :
    ℕ → List Cand → List Cand → Finset ℕ → List Cand
  | 0, _, top, _ => top
  | fuel + 1, cands, top, vis =>
    match heapPop gtCand cands with
    | (none, _) => top
    | (some current, cands1) =>
      if optTest (fun w : Cand => w.dist < current.dist ∧ ef ≤ top.length)
          (heapPeek top) then top
      else
        match nbrs current.id with
        | some ns =>
          let s := expandNbrs dist ef ns (cands1, top, vis)
          searchLoop dist nbrs ef fuel s.1 s.2.1 s.2.2
        | none => searchLoop dist nbrs ef fuel cands1 top vis

/-- `search_layer`: seed both heaps with the entry point (marked visited),
run the loop, and return `top_results.into_iter().collect()` — the max-heap's
backing array in array order. -/
def searchLayer (fuel : ℕ) (dist : ℕ → ℚ) (nbrs : ℕ → Option (List ℕ))
    (ef : ℕ) (entry : ℕ) : List Cand :=
  let first : Cand := ⟨entry, dist entry⟩
  searchLoop dist nbrs ef fuel (heapPush gtCand [] first)
    (heapPush gtRev [] first) {entry}

/-! ## Concrete instances used by counterexamples and witnesses -/

/-- Two-node HNSW layer: entry 0 at distance 1 with neighbor 1 at distance 2
(and back). -/
def c4dist : ℕ → ℚ := fun i => if i = 0 then 1 else 2

def c4nbrs : ℕ → Option (List ℕ) := fun i =>
  if i = 0 then some [1] else some [0]

/-- Two live nodes, a hash index registered for field `"f"` whose every
bucket holds node 0, nothing else populated. -/
def c6db : QueryDB :=
  { nodeCount := 2, nodeAt := fun _ => { flags := 1 }, payloadOf := fun _ => none,
    slugGet := fun _ => none, collSnap := fun _ => ∅,
    adjFwd := fun _ => [], adjRev := fun _ => [], edgeAt := fun _ => default,
    hashIdx := fun f => if f = "f" then some (fun _ => [0]) else none,
    rangeIdx := fun _ => none, spatialWithin := fun _ _ _ => ∅,
    hnsw := none, fulltext := none }

/-- Engine with two nodes (slug hashes 5 and 6) and one `link` edge 0 → 1 of
type hash 9, built through the write and link paths. -/
def c10st : DBState :=
  (do
    let r1 ← writeNode (mkDB 16 0) ⟨5, 7, 0, 0, 10, 0, false, fun _ => none⟩
    let r2 ← writeNode r1.2 ⟨6, 7, 0, 0, 10, 0, false, fun _ => none⟩
    pure (addEdge r2.2 5 6 1 9).2).getD (mkDB 16 0)

end Sekejap

namespace Sekejap

/-- C1 (code_bug evaluation): with capacity request 10 (allocated capacity 16,
so keys 1, 17 and 33 all hash to home slot 1), inserting 1, 17 and 33 and then
removing 17 makes `get(33)` return `None` even though 33 is live — the lookup
hits the tombstone left at slot 2 (probe distance 0) while probing at distance
1 and takes the `probe_dist < current` miss exit instead of skipping the
tombstone.  Before the remove the same lookup returned `Some 30`.  This
violates the claim that `get` returns the latest non-removed insert and in
particular that lookup "skips tombstone slots". -/
theorem C1_get_misses_live_key_past_tombstone :
    (do
      let t1 ← mhInsert (mhNew 10) 1 10
      let t2 ← mhInsert t1 17 20
      let t3 ← mhInsert t2 33 30
      pure (mhGet t3 33, mhGet (mhRemove t3 17) 33)) =
      some (some 30, none) := by
  decide

/-- C2 (code_bug evaluation): writing the same slug twice (slug hash 5,
collection hash 7) leaves the first node slot live (`flags = 1`) at arena
index 0 while the slug index maps hash 5 to index 1 — so the live node at
index 0 violates `slug_index.get(node.slug_hash) == Some(0)`; the engine
never tombstones the superseded slot on an upsert. -/
theorem C2_double_write_breaks_slug_bijection :
    (do
      let r1 ← writeNode (mkDB 1024 0) ⟨5, 7, 0, 0, 10, 0, false, fun _ => none⟩
      let r2 ← writeNode r1.2 ⟨5, 7, 0, 0, 10, 0, false, fun _ => none⟩
      pure ((r2.2.nodes.getD 0 default).flags,
        (r2.2.nodes.getD 0 default).slugHash,
        mhGet r2.2.slugIndex 5)) = some (1, 5, some 1) ∧
      (some 1 : Option ℕ) ≠ some 0 := by
  exact ⟨by decide, by decide⟩

/-- C7: `add_edge_internal` resolves both endpoint slugs before reserving an
edge slot; when either lookup misses it returns the error with the state
untouched — no edge slot written, `adj_fwd`/`adj_rev` unchanged, committed
edge count unchanged. -/
theorem C7_link_atomic_on_absent_endpoint (st : DBState) (src dst : ℕ)
    (w : ℚ) (t : ℕ)
    (h : mhGet st.slugIndex src = none ∨ mhGet st.slugIndex dst = none) :
    ∃ msg, addEdge st src dst w t = (Except.error msg, st) := by
  cases hs : mhGet st.slugIndex src with
  | none => exact ⟨"Source not found", by simp [addEdge, hs]⟩
  | some si =>
    rcases h with h | h
    · rw [hs] at h; cases h
    · exact ⟨"Target not found", by simp [addEdge, hs, h]⟩

/-- Witness for C7 on a fresh engine and two unknown slugs. -/
theorem C7_link_atomic_on_absent_endpoint_witness :
    mhGet (mkDB 0 0).slugIndex 5 = none ∧
      ∃ msg, addEdge (mkDB 0 0) 5 6 1 9 = (Except.error msg, mkDB 0 0) :=
  ⟨by decide, C7_link_atomic_on_absent_endpoint (mkDB 0 0) 5 6 1 9 (Or.inl (by decide))⟩

/-- C9: `delete_internal` on a slug whose hash is absent from the slug index
returns `Ok(())` and leaves the whole engine state — node arena, slug index,
collection bitmaps, collection counts, field indexes — unchanged; no
`NotFound` is surfaced. -/
theorem C9_delete_absent_is_silent_noop (st : DBState) (h : ℕ)
    (habs : mhGet st.slugIndex h = none) :
    deleteNode st h = (Except.ok (), st) := by
  simp [deleteNode, habs]

/-- Witness for C9 on a fresh engine and an unknown slug. -/
theorem C9_delete_absent_is_silent_noop_witness :
    mhGet (mkDB 0 0).slugIndex 5 = none ∧
      deleteNode (mkDB 0 0) 5 = (Except.ok (), mkDB 0 0) :=
  ⟨by decide, C9_delete_absent_is_silent_noop (mkDB 0 0) 5 (by decide)⟩

/-- C8: `BlobArena::append` is infallible and unchecked.  The reservation is
the old write offset, the head always advances by `data.len()` (the
hypotheses rule out the physically impossible `u32`/`u64` wrap of a > 4 GiB
blob or a > 2^64 offset), and the copied byte positions
`offset .. offset + data.len()` all lie inside the mapped region precisely
when `offset + data.len() ≤ size` — for nonempty data the copy escapes the
mapping whenever that precondition fails. -/
theorem C8_blob_append_unchecked (st : BlobState) (data : List ℕ)
    (hlen : data.length < 2 ^ 32) (hoff : st.writeOffset + data.length < 2 ^ 64) :
    (blobAppend st data).1.1 = st.writeOffset ∧
    (blobAppend st data).1.2 = data.length ∧
    (blobAppend st data).2.writeOffset = st.writeOffset + data.length ∧
    ((∀ i < data.length, st.writeOffset + i < st.sizeBytes) ↔
      (data.length = 0 ∨ st.writeOffset + data.length ≤ st.sizeBytes)) := by
  refine ⟨rfl, Nat.mod_eq_of_lt hlen, ?_, ?_⟩
  · simp only [blobAppend]
    rw [Nat.mod_eq_of_lt hlen, Nat.mod_eq_of_lt hoff]
  · constructor
    · intro h
      rcases Nat.eq_zero_or_pos data.length with h0 | h0
      · exact Or.inl h0
      · have := h (data.length - 1) (by omega)
        omega
    · rintro (h0 | hle) i hi
      · omega
      · omega

/-- Witness for C8 at a concrete arena state and payload. -/
theorem C8_blob_append_unchecked_witness :
    ((blobAppend ⟨100, 64, 64⟩ [9, 9, 9]).1.1 = 64 ∧
      (blobAppend ⟨100, 64, 64⟩ [9, 9, 9]).1.2 = 3 ∧
      (blobAppend ⟨100, 64, 64⟩ [9, 9, 9]).2.writeOffset = 64 + 3 ∧
      ((∀ i < ([9, 9, 9] : List ℕ).length, 64 + i < 100) ↔
        (([9, 9, 9] : List ℕ).length = 0 ∨ 64 + 3 ≤ 100))) :=
  C8_blob_append_unchecked ⟨100, 64, 64⟩ [9, 9, 9] (by decide) (by decide)

/-- C3 (code_bug evaluation): the `repr(C)` layout of `NodeSlot` as declared —
with trailing padding `_pad : [u64; 7]` — is 120 bytes, not the 128 bytes the
claim (and the source comment "Pad to 128 bytes total") states: the named
fields end at offset 64 and the 56-byte pad array brings the size to 120. -/
theorem C3_nodeslot_size_is_120_not_128 :
    reprCSize nodeSlotFields = 120 ∧ reprCSize nodeSlotFields ≠ 128 := by
  constructor
  · rfl
  · decide

/-! ### BFS traversal equals hop-bounded reachability (towards C5) -/

section BFS

variable (adj : ℕ → List ℕ) (edgeAt : ℕ → EdgeSlot) (tgt : EdgeSlot → ℕ) (t : ℕ)

lemma matchTargets_eq_sdiff (vis : Finset ℕ) (i : ℕ) :
    matchTargets adj edgeAt tgt t vis i = specNbrs adj edgeAt tgt t i \ vis := by
  ext x
  simp only [matchTargets, specNbrs, List.mem_toFinset, List.mem_filterMap,
    Finset.mem_sdiff]
  constructor
  · rintro ⟨e, he, hx⟩
    by_cases hc : (edgeAt e).edgeTypeHash = t ∧ (edgeAt e).flags ≠ 0 ∧
        tgt (edgeAt e) ∉ vis
    · rw [if_pos hc] at hx
      obtain rfl := Option.some.inj hx
      exact ⟨⟨e, he, by rw [if_pos ⟨hc.1, hc.2.1⟩]⟩, hc.2.2⟩
    · rw [if_neg hc] at hx
      cases hx
  · rintro ⟨⟨e, he, hx⟩, hv⟩
    by_cases hc : (edgeAt e).edgeTypeHash = t ∧ (edgeAt e).flags ≠ 0
    · rw [if_pos hc] at hx
      obtain rfl := Option.some.inj hx
      exact ⟨e, he, by rw [if_pos ⟨hc.1, hc.2, hv⟩]⟩
    · rw [if_neg hc] at hx
      cases hx

lemma levelExpand_fst (l : List ℕ) (vis nf : Finset ℕ) :
    (levelExpand adj edgeAt tgt t l vis nf).1 = vis ∪ l.toFinset := by
  induction l generalizing vis nf with
  | nil => simp [levelExpand]
  | cons i rest ih =>
    rw [levelExpand, ih]
    ext x
    simp only [Finset.mem_union, Finset.mem_insert, List.toFinset_cons]
    tauto

lemma levelExpand_nf_mono (l : List ℕ) (vis nf : Finset ℕ) :
    nf ⊆ (levelExpand adj edgeAt tgt t l vis nf).2 := by
  induction l generalizing vis nf with
  | nil => simp [levelExpand]
  | cons i rest ih =>
    rw [levelExpand]
    exact subset_trans Finset.subset_union_left (ih _ _)

lemma levelExpand_snd_subset (l : List ℕ) (vis nf : Finset ℕ) :
    (levelExpand adj edgeAt tgt t l vis nf).2 ⊆
      nf ∪ l.toFinset.biUnion (specNbrs adj edgeAt tgt t) := by
  induction l generalizing vis nf with
  | nil => simp [levelExpand]
  | cons i rest ih =>
    rw [levelExpand]
    refine subset_trans (ih _ _) ?_
    intro x hx
    simp only [Finset.mem_union, List.toFinset_cons, Finset.mem_biUnion,
      Finset.mem_insert] at hx ⊢
    rcases hx with (hx | hx) | ⟨j, hj, hxj⟩
    · exact Or.inl hx
    · rw [matchTargets_eq_sdiff] at hx
      exact Or.inr ⟨i, Or.inl rfl, (Finset.mem_sdiff.mp hx).1⟩
    · exact Or.inr ⟨j, Or.inr hj, hxj⟩

lemma levelExpand_snd_superset (l : List ℕ) (vis nf : Finset ℕ) :
    nf ∪ (l.toFinset.biUnion (specNbrs adj edgeAt tgt t) \ (vis ∪ l.toFinset)) ⊆
      (levelExpand adj edgeAt tgt t l vis nf).2 := by
  induction l generalizing vis nf with
  | nil => simp [levelExpand]
  | cons i rest ih =>
    rw [levelExpand]
    intro x hx
    simp only [Finset.mem_union, Finset.mem_sdiff, Finset.mem_biUnion,
      List.toFinset_cons, Finset.mem_insert, not_or] at hx
    rcases hx with hx | ⟨⟨j, hj, hxj⟩, hxv, hxi, hxr⟩
    · exact levelExpand_nf_mono adj edgeAt tgt t _ _ _
        (Finset.mem_union_left _ hx)
    · rcases hj with rfl | hj
      · -- x is a matching target of the head node i, and not yet visited
        refine levelExpand_nf_mono adj edgeAt tgt t _ _ _ ?_
        refine Finset.mem_union_right _ ?_
        rw [matchTargets_eq_sdiff]
        refine Finset.mem_sdiff.mpr ⟨hxj, ?_⟩
        simp only [Finset.mem_insert, not_or]
        exact ⟨hxi, hxv⟩
      · -- x is produced by a later frontier node of this level
        refine ih (insert i vis) _ ?_
        simp only [Finset.mem_union, Finset.mem_sdiff, Finset.mem_biUnion,
          Finset.mem_insert, not_or]
        exact Or.inr ⟨⟨j, hj, hxj⟩, ⟨hxi, hxv⟩, hxr⟩

lemma hopClosure_empty (h : ℕ) : hopClosure adj edgeAt tgt t h ∅ = ∅ := by
  induction h with
  | zero => rfl
  | succ h ih => simp [hopClosure, expandOnce, ih]

lemma expandOnce_mono {s u : Finset ℕ} (hsu : s ⊆ u) :
    expandOnce adj edgeAt tgt t s ⊆ expandOnce adj edgeAt tgt t u := by
  unfold expandOnce
  exact Finset.union_subset_union hsu (Finset.biUnion_subset_biUnion_of_subset_left _ hsu)

lemma hopClosure_mono (h : ℕ) {s u : Finset ℕ} (hsu : s ⊆ u) :
    hopClosure adj edgeAt tgt t h s ⊆ hopClosure adj edgeAt tgt t h u := by
  induction h generalizing s u with
  | zero => exact hsu
  | succ h ih => exact ih (expandOnce_mono adj edgeAt tgt t hsu)

lemma subset_hopClosure (h : ℕ) (s : Finset ℕ) :
    s ⊆ hopClosure adj edgeAt tgt t h s := by
  induction h generalizing s with
  | zero => exact subset_rfl
  | succ h ih =>
    exact subset_trans Finset.subset_union_left (ih (expandOnce adj edgeAt tgt t s))

/-- Bounding lemma: a closure started inside `C ∪ Y` stays inside
`C ∪ closure Y` as long as `C` only expands into `C ∪ Y`. -/
lemma hopClosure_bound (h : ℕ) (X Y C : Finset ℕ) (hX : X ⊆ C ∪ Y)
    (hC : ∀ i ∈ C, specNbrs adj edgeAt tgt t i ⊆ C ∪ Y) :
    hopClosure adj edgeAt tgt t h X ⊆ C ∪ hopClosure adj edgeAt tgt t h Y := by
  induction h generalizing X Y with
  | zero => exact hX
  | succ h ih =>
    refine ih (expandOnce adj edgeAt tgt t X) (expandOnce adj edgeAt tgt t Y) ?_ ?_
    · intro x hx
      rcases Finset.mem_union.mp hx with hx | hx
      · rcases Finset.mem_union.mp (hX hx) with hx | hx
        · exact Finset.mem_union_left _ hx
        · exact Finset.mem_union_right _ (Finset.mem_union_left _ hx)
      · obtain ⟨i, hi, hxi⟩ := Finset.mem_biUnion.mp hx
        rcases Finset.mem_union.mp (hX hi) with hi | hi
        · rcases Finset.mem_union.mp (hC i hi hxi) with h1 | h1
          · exact Finset.mem_union_left _ h1
          · exact Finset.mem_union_right _ (Finset.mem_union_left _ h1)
        · exact Finset.mem_union_right _
            (Finset.mem_union_right _ (Finset.mem_biUnion.mpr ⟨i, hi, hxi⟩))
    · intro i hi
      exact subset_trans (hC i hi)
        (Finset.union_subset_union subset_rfl Finset.subset_union_left)

/-- The BFS loop of `bfs_forward`/`bfs_backward` computes exactly
`visited ∪ (hop-bounded closure of the frontier)`, for every visited set
whose expansions are already covered. -/
lemma bfsLoop_eq_union_closure (h : ℕ) (vis fr : Finset ℕ)
    (hinv : ∀ i ∈ vis, specNbrs adj edgeAt tgt t i ⊆ vis ∪ fr) :
    bfsLoop adj edgeAt tgt t h vis fr =
      vis ∪ hopClosure adj edgeAt tgt t h fr := by
  induction h generalizing vis fr with
  | zero => rfl
  | succ h ih =>
    by_cases hfr : fr = ∅
    · subst hfr
      rw [bfsLoop, if_pos rfl, hopClosure_empty]
    · rw [bfsLoop, if_neg hfr]
      have hsort : (fr.sort (· ≤ ·)).toFinset = fr := Finset.sort_toFinset _ _
      have hfst := levelExpand_fst adj edgeAt tgt t (fr.sort (· ≤ ·)) vis ∅
      rw [hsort] at hfst
      have hub := levelExpand_snd_subset adj edgeAt tgt t (fr.sort (· ≤ ·)) vis ∅
      rw [hsort, Finset.empty_union] at hub
      have hlb := levelExpand_snd_superset adj edgeAt tgt t (fr.sort (· ≤ ·)) vis ∅
      rw [hsort, Finset.empty_union] at hlb
      set p := levelExpand adj edgeAt tgt t (fr.sort (· ≤ ·)) vis ∅ with hp
      have hinv2 : ∀ i ∈ p.1, specNbrs adj edgeAt tgt t i ⊆ p.1 ∪ p.2 := by
        intro i hi
        rw [hfst] at hi ⊢
        rcases Finset.mem_union.mp hi with hi | hi
        · exact subset_trans (hinv i hi) Finset.subset_union_left
        · intro x hx
          by_cases hxc : x ∈ vis ∪ fr
          · exact Finset.mem_union_left _ hxc
          · refine Finset.mem_union_right _ (hlb ?_)
            exact Finset.mem_sdiff.mpr ⟨Finset.mem_biUnion.mpr ⟨i, hi, hx⟩, hxc⟩
      rw [ih p.1 p.2 hinv2, hfst]
      -- (vis ∪ fr) ∪ closure h p.2 = vis ∪ closure h (expandOnce fr)
      apply Finset.Subset.antisymm
      · intro x hx
        rcases Finset.mem_union.mp hx with hx | hx
        · rcases Finset.mem_union.mp hx with hx | hx
          · exact Finset.mem_union_left _ hx
          · refine Finset.mem_union_right _ ?_
            refine subset_hopClosure adj edgeAt tgt t h _ ?_
            exact Finset.mem_union_left _ hx
        · refine Finset.mem_union_right _ ?_
          refine hopClosure_mono adj edgeAt tgt t h ?_ hx
          exact subset_trans hub Finset.subset_union_right
      · intro x hx
        rcases Finset.mem_union.mp hx with hx | hx
        · exact Finset.mem_union_left _ (Finset.mem_union_left _ hx)
        · have hbnd := hopClosure_bound adj edgeAt tgt t h
            (expandOnce adj edgeAt tgt t fr) p.2 (vis ∪ fr) ?_ ?_
          · rcases Finset.mem_union.mp (hbnd hx) with hx | hx
            · exact Finset.mem_union_left _ hx
            · exact Finset.mem_union_right _ hx
          · intro y hy
            rcases Finset.mem_union.mp hy with hy | hy
            · exact Finset.mem_union_left _ (Finset.mem_union_right _ hy)
            · by_cases hyc : y ∈ vis ∪ fr
              · exact Finset.mem_union_left _ hyc
              · exact Finset.mem_union_right _
                  (hlb (Finset.mem_sdiff.mpr ⟨hy, hyc⟩))
          · intro i hi
            rcases Finset.mem_union.mp hi with hi | hi
            · exact subset_trans (hinv i hi) Finset.subset_union_left
            · intro x hx
              by_cases hxc : x ∈ vis ∪ fr
              · exact Finset.mem_union_left _ hxc
              · refine Finset.mem_union_right _ ?_
                refine hlb (Finset.mem_sdiff.mpr ⟨?_, hxc⟩)
                exact Finset.mem_biUnion.mpr ⟨i, hi, hx⟩

/-- `bfs_forward`/`bfs_backward` from a present candidate set: the result is
exactly the hop-bounded closure of the starting set. -/
lemma bfsTraverse_eq_closure (S : Finset ℕ) (h : ℕ) :
    bfsTraverse adj edgeAt tgt t (some S) h =
      hopClosure adj edgeAt tgt t h S := by
  unfold bfsTraverse
  rw [show (some S).getD ∅ = S from rfl,
    bfsLoop_eq_union_closure adj edgeAt tgt t h ∅ S (by intro i hi; cases hi)]
  rw [Finset.empty_union]

end BFS

/-- C5: a `Forward(t)` step on an established candidate bitmap `S` with hop
count `h` — the pending value of an immediately preceding `Hops(n)`,
defaulting to 1 — replaces the bitmap with the union of `S` and every node
reachable from `S` in at most `h` hops over edges whose `edge_type_hash`
matches and whose flags word is nonzero (`hopClosure`), consuming the
modifier; `Backward` is the symmetric statement over incoming edges. -/
theorem C5_forward_backward_is_hop_closure (db : QueryDB) (S : Finset ℕ)
    (pend : Option ℕ) (t : ℕ) :
    execStep db (.Forward t) ⟨some S, pend⟩ =
      ⟨some (hopClosure db.adjFwd db.edgeAt (fun e => e.toNode) t
        (pend.getD 1) S), none⟩ ∧
    execStep db (.Backward t) ⟨some S, pend⟩ =
      ⟨some (hopClosure db.adjRev db.edgeAt (fun e => e.fromNode) t
        (pend.getD 1) S), none⟩ := by
  constructor
  · show ExecSt.mk (some (bfsTraverse db.adjFwd db.edgeAt (fun e => e.toNode) t
      (some S) (pend.getD 1))) none = _
    rw [bfsTraverse_eq_closure]
  · show ExecSt.mk (some (bfsTraverse db.adjRev db.edgeAt (fun e => e.fromNode) t
      (some S) (pend.getD 1))) none = _
    rw [bfsTraverse_eq_closure]

/-! ### Monotonicity of the payload filters (towards C6) -/

lemma execSteps_append (db : QueryDB) (P Q : List Step) (st : ExecSt) :
    execSteps db (P ++ Q) st = execSteps db Q (execSteps db P st) := by
  induction P generalizing st with
  | nil => rfl
  | cons s rest ih => rw [List.cons_append, execSteps, execSteps, ih]

lemma interOrSet_some_subset (B bm : Finset ℕ) :
    ∃ Bp, interOrSet (some B) bm = some Bp ∧ Bp ⊆ B :=
  ⟨B ∩ bm, rfl, Finset.inter_subset_left⟩

/-- Any payload-filter step applied to an established candidate set keeps a
subset of it: the index arms intersect, the scan arms filter. -/
lemma execStep_filter_subset (db : QueryDB) (F : Step) (st : ExecSt)
    (B : Finset ℕ) (hF : isPayloadFilter F) (hB : st.cand = some B) :
    ∃ Bp, (execStep db F st).cand = some Bp ∧ Bp ⊆ B := by
  cases F
  case WhereEq field v =>
    simp only [execStep]
    cases hidx : db.hashIdx field with
    | some lk =>
      simp only [hB]
      exact interOrSet_some_subset B _
    | none =>
      simp only [hB, Option.map_some']
      exact ⟨_, rfl, Finset.filter_subset _ _⟩
  case WhereBetween field lo hi =>
    simp only [execStep]
    cases hidx : db.rangeIdx field with
    | some lk =>
      simp only [hB]
      exact interOrSet_some_subset B _
    | none =>
      simp only [hB, Option.map_some']
      exact ⟨_, rfl, Finset.filter_subset _ _⟩
  case WhereGt field x =>
    simp only [execStep]
    cases hidx : db.rangeIdx field with
    | some lk =>
      simp only [hB]
      exact interOrSet_some_subset B _
    | none =>
      simp only [hB, Option.map_some']
      exact ⟨_, rfl, Finset.filter_subset _ _⟩
  case WhereLt field x =>
    simp only [execStep]
    cases hidx : db.rangeIdx field with
    | some lk =>
      simp only [hB]
      exact interOrSet_some_subset B _
    | none =>
      simp only [hB, Option.map_some']
      exact ⟨_, rfl, Finset.filter_subset _ _⟩
  case WhereGte field x =>
    simp only [execStep]
    cases hidx : db.rangeIdx field with
    | some lk =>
      simp only [hB]
      exact interOrSet_some_subset B _
    | none =>
      simp only [hB, Option.map_some']
      exact ⟨_, rfl, Finset.filter_subset _ _⟩
  case WhereLte field x =>
    simp only [execStep]
    cases hidx : db.rangeIdx field with
    | some lk =>
      simp only [hB]
      exact interOrSet_some_subset B _
    | none =>
      simp only [hB, Option.map_some']
      exact ⟨_, rfl, Finset.filter_subset _ _⟩
  case WhereIn field vs =>
    simp only [execStep, hB, Option.map_some']
    exact ⟨_, rfl, Finset.filter_subset _ _⟩
  all_goals cases hF

/-- C6 (amended): for every pipeline `P` whose execution leaves an
*established* candidate bitmap `Some B` — in particular every pipeline
containing a starter — appending any single payload-filter step (`WhereEq`,
`WhereIn`, `WhereBetween`, `WhereGt`, `WhereGte`, `WhereLt`, `WhereLte`)
yields a pipeline whose resulting bitmap is a subset of `B`, on both the
field-index dispatch path and the payload-scan fallback path.  (The
unamended claim fails only when `P` establishes no bitmap: the executor then
returns the empty default while an index-backed filter appended to `P`
*establishes* its hits instead of intersecting — see the counterexample.) -/
theorem C6_filter_append_is_subset (db : QueryDB) (P : List Step) (F : Step)
    (B : Finset ℕ) (hF : isPayloadFilter F)
    (hB : (execSteps db P ⟨none, none⟩).cand = some B) :
    execPipeline db (P ++ [F]) ⊆ B := by
  unfold execPipeline
  rw [execSteps_append]
  obtain ⟨Bp, hBp, hsub⟩ :=
    execStep_filter_subset db F (execSteps db P ⟨none, none⟩) B hF hB
  rw [show execSteps db [F] (execSteps db P ⟨none, none⟩) =
    execStep db F (execSteps db P ⟨none, none⟩) from rfl, hBp]
  exact hsub

/-- Witness for C6 (amended) : `All` on `c6db` establishes `{0, 1}` and the
appended indexed `WhereEq` narrows it to a subset. -/
theorem C6_filter_append_is_subset_witness :
    isPayloadFilter (Step.WhereEq "f" Json.jnull) ∧
      (execSteps c6db [Step.All] ⟨none, none⟩).cand = some {0, 1} ∧
      execPipeline c6db ([Step.All] ++ [Step.WhereEq "f" Json.jnull]) ⊆ {0, 1} :=
  ⟨trivial, by decide,
    C6_filter_append_is_subset c6db [Step.All] (Step.WhereEq "f" Json.jnull)
      {0, 1} trivial (by decide)⟩

/-- C6 (counterexample to the claim as stated): the empty pipeline executes
to the default empty bitmap, but appending the indexed filter
`WhereEq("f", null)` *establishes* the index hits `{0}`, which is not a
subset of `∅`. -/
theorem C6_counterexample_establishing_filter :
    ¬ (execPipeline c6db ([] ++ [Step.WhereEq "f" Json.jnull]) ⊆
        execPipeline c6db []) := by
  decide

/-! ### Tombstoned edges are invisible to traversal (towards C10) -/

lemma filterMap_filter_ne {α β : Type} [DecidableEq α] (f : α → Option β)
    (j : α) (hj : f j = none) (l : List α) :
    (l.filter (fun e => e ≠ j)).filterMap f = l.filterMap f := by
  induction l with
  | nil => rfl
  | cons a rest ih =>
    by_cases ha : a = j
    · subst ha
      rw [List.filter_cons_of_neg (by simp), List.filterMap_cons_none hj, ih]
    · rw [List.filter_cons_of_pos (by simp [ha]), List.filterMap_cons,
        List.filterMap_cons, ih]

section AdjDrop

variable (adj : ℕ → List ℕ) (edgeAt : ℕ → EdgeSlot) (tgt : EdgeSlot → ℕ) (t j : ℕ)

lemma matchTargets_adjDrop (hj : (edgeAt j).flags = 0) (vis : Finset ℕ) (i : ℕ) :
    matchTargets (adjDrop adj j) edgeAt tgt t vis i =
      matchTargets adj edgeAt tgt t vis i := by
  unfold matchTargets adjDrop
  rw [filterMap_filter_ne _ j (by simp [hj])]

lemma levelExpand_adjDrop (hj : (edgeAt j).flags = 0) :
    ∀ (l : List ℕ) (vis nf : Finset ℕ),
      levelExpand (adjDrop adj j) edgeAt tgt t l vis nf =
        levelExpand adj edgeAt tgt t l vis nf := by
  intro l
  induction l with
  | nil => intro vis nf; rfl
  | cons i rest ih =>
    intro vis nf
    rw [levelExpand, levelExpand, matchTargets_adjDrop adj edgeAt tgt t j hj, ih]

lemma bfsLoop_adjDrop (hj : (edgeAt j).flags = 0) :
    ∀ (h : ℕ) (vis fr : Finset ℕ),
      bfsLoop (adjDrop adj j) edgeAt tgt t h vis fr =
        bfsLoop adj edgeAt tgt t h vis fr := by
  intro h
  induction h with
  | zero => intro vis fr; rfl
  | succ h ih =>
    intro vis fr
    rw [bfsLoop, bfsLoop, levelExpand_adjDrop adj edgeAt tgt t j hj]
    by_cases hfr : fr = ∅
    · rw [if_pos hfr, if_pos hfr]
    · rw [if_neg hfr, if_neg hfr, ih]

end AdjDrop

/-- C10: `delete_edge_internal` on resolvable endpoints succeeds, tombstones
at most the *first* matching active edge of `adj_fwd[src]` (its flags set
to 0), leaves `adj_fwd` and `adj_rev` untouched (so the edge index remains
present in both), and BFS traversal never follows a flags-0 edge: dropping a
tombstoned index from every adjacency list does not change any traversal. -/
theorem C10_unlink_tombstone_invisible_to_bfs :
    (∀ (st : DBState) (src dst t si di : ℕ),
      mhGet st.slugIndex src = some si → mhGet st.slugIndex dst = some di →
      (deleteEdge st src dst t).1 = Except.ok () ∧
      (deleteEdge st src dst t).2.adjFwd = st.adjFwd ∧
      (deleteEdge st src dst t).2.adjRev = st.adjRev ∧
      (match ((assocGet st.adjFwd si).getD []).find? (edgeMatches st.edges di t) with
       | none => (deleteEdge st src dst t).2.edges = st.edges
       | some e =>
         e ∈ (assocGet st.adjFwd si).getD [] ∧
         (deleteEdge st src dst t).2.edges =
           st.edges.set e { st.edges.getD e default with flags := 0 })) ∧
    (∀ (adj : ℕ → List ℕ) (edgeAt : ℕ → EdgeSlot) (tgt : EdgeSlot → ℕ)
        (t j : ℕ) (cand : Option (Finset ℕ)) (h : ℕ),
      (edgeAt j).flags = 0 →
      bfsTraverse (adjDrop adj j) edgeAt tgt t cand h =
        bfsTraverse adj edgeAt tgt t cand h) := by
  constructor
  · intro st src dst t si di hsrc hdst
    simp only [deleteEdge, hsrc, hdst]
    cases hadj : assocGet st.adjFwd si with
    | none =>
      simp only [hadj, Option.getD_none, List.find?_nil]
      exact ⟨trivial, trivial, trivial, trivial⟩
    | some lst =>
      simp only [hadj, Option.getD_some]
      cases hfind : lst.find? (edgeMatches st.edges di t) with
      | none =>
        simp only [hfind]
        exact ⟨trivial, trivial, trivial, trivial⟩
      | some e =>
        simp only [hfind]
        exact ⟨trivial, trivial, trivial, List.mem_of_find?_eq_some hfind, rfl⟩
  · intro adj edgeAt tgt t j cand h hj
    unfold bfsTraverse
    rw [bfsLoop_adjDrop adj edgeAt tgt t j hj]

/-- Witness for C10 on `c10st` (nodes 5 → 0, 6 → 1, one active edge of type
hash 9) and on a concrete inactive edge for the traversal part. -/
theorem C10_unlink_tombstone_invisible_to_bfs_witness :
    ((deleteEdge c10st 5 6 9).1 = Except.ok () ∧
      (deleteEdge c10st 5 6 9).2.adjFwd = c10st.adjFwd ∧
      (deleteEdge c10st 5 6 9).2.adjRev = c10st.adjRev) ∧
    bfsTraverse (adjDrop (fun _ => [0]) 0) (fun _ => {}) (fun e => e.toNode) 0
        (some {0}) 1 =
      bfsTraverse (fun _ => [0]) (fun _ => {}) (fun e => e.toNode) 0
        (some {0}) 1 := by
  have ha := (C10_unlink_tombstone_invisible_to_bfs.1 c10st 5 6 9 0 1
    (by decide) (by decide))
  exact ⟨⟨ha.1, ha.2.1, ha.2.2.1⟩,
    C10_unlink_tombstone_invisible_to_bfs.2 (fun _ => [0]) (fun _ => {})
      (fun e => e.toNode) 0 0 (some {0}) 1 rfl⟩

/-! ### `search_layer` length bound (towards C4) -/

lemma siftUpB_length (gt : Cand → Cand → Bool) (s : ℕ) :
    ∀ (fuel : ℕ) (l : List Cand) (pos : ℕ),
      (siftUpB gt s fuel l pos).length = l.length := by
  intro fuel
  induction fuel with
  | zero => intro l pos; rfl
  | succ fuel ih =>
    intro l pos
    rw [siftUpB]
    by_cases h1 : pos ≤ s
    · rw [if_pos h1]
    · rw [if_neg h1]
      by_cases h2 : gt (l.getD pos default) (l.getD ((pos - 1) / 2) default)
      · rw [if_pos h2, ih]
        simp
      · rw [if_neg h2]

lemma heapPush_length (gt : Cand → Cand → Bool) (l : List Cand) (x : Cand) :
    (heapPush gt l x).length = l.length + 1 := by
  unfold heapPush
  rw [siftUpB_length]
  simp

lemma sdtbWalk_length (gt : Cand → Cand → Bool) :
    ∀ (fuel : ℕ) (l : List Cand) (hole : ℕ),
      (sdtbWalk gt fuel l hole).1.length = l.length := by
  intro fuel
  induction fuel with
  | zero => intro l hole; rfl
  | succ fuel ih =>
    intro l hole
    rw [sdtbWalk]
    by_cases h1 : 2 * hole + 1 + 2 ≤ l.length
    · rw [if_pos h1, ih]
      simp
    · rw [if_neg h1]
      by_cases h2 : 2 * hole + 1 + 1 = l.length
      · rw [if_pos h2]
        simp
      · rw [if_neg h2]

lemma siftDownToBottom_length (gt : Cand → Cand → Bool) (l : List Cand)
    (pos : ℕ) : (siftDownToBottom gt l pos).length = l.length := by
  unfold siftDownToBottom
  rw [siftUpB_length, List.length_set, sdtbWalk_length]

lemma heapPop_length (gt : Cand → Cand → Bool) (l : List Cand) (hne : l ≠ []) :
    (heapPop gt l).2.length = l.length - 1 := by
  cases l with
  | nil => exact absurd rfl hne
  | cons a r =>
    rw [heapPop]
    have hlen := List.length_dropLast (a :: r)
    cases hdl : List.dropLast (a :: r) with
    | nil =>
      rw [hdl] at hlen
      simp only [List.isEmpty_nil, if_true, List.length_nil, List.length_cons]
      simp only [List.length_nil, List.length_cons] at hlen
      omega
    | cons b rb =>
      rw [hdl] at hlen
      simp only [List.isEmpty_cons, Bool.false_eq_true, if_false,
        siftDownToBottom_length, List.length_set]
      simp only [List.length_cons] at hlen ⊢
      omega

lemma expandNbrs_top_le (dist : ℕ → ℚ) (ef : ℕ) :
    ∀ (ns : List ℕ) (cands top : List Cand) (vis : Finset ℕ),
      top.length ≤ ef →
      (expandNbrs dist ef ns (cands, top, vis)).2.1.length ≤ ef := by
  intro ns
  induction ns with
  | nil => intro cands top vis htop; exact htop
  | cons nb rest ih =>
    intro cands top vis htop
    rw [expandNbrs]
    by_cases hv : nb ∈ vis
    · rw [if_pos hv]
      exact ih _ _ _ htop
    · rw [if_neg hv]
      by_cases hc : top.length < ef ∨
          optTest (fun w : Cand => dist nb < w.dist) (heapPeek top)
      · rw [if_pos hc]
        refine ih _ _ _ ?_
        by_cases hover : ef < (heapPush gtRev top ⟨nb, dist nb⟩).length
        · rw [if_pos hover, heapPop_length]
          · rw [heapPush_length]
            omega
          · intro hnil
            have := congrArg List.length hnil
            rw [heapPush_length] at this
            simp at this
        · rw [if_neg hover]
          omega
      · rw [if_neg hc]
        exact ih _ _ _ htop

lemma searchLoop_top_le (dist : ℕ → ℚ) (nbrs : ℕ → Option (List ℕ)) (ef : ℕ) :
    ∀ (fuel : ℕ) (cands top : List Cand) (vis : Finset ℕ),
      top.length ≤ ef →
      (searchLoop dist nbrs ef fuel cands top vis).length ≤ ef := by
  intro fuel
  induction fuel with
  | zero => intro cands top vis htop; exact htop
  | succ fuel ih =>
    intro cands top vis htop
    rw [searchLoop]
    cases hpop : heapPop gtCand cands with
    | mk o cands1 =>
      cases o with
      | none => exact htop
      | some current =>
        dsimp only
        by_cases hbrk : optTest
            (fun w : Cand => w.dist < current.dist ∧ ef ≤ top.length)
            (heapPeek top)
        · rw [if_pos hbrk]
          exact htop
        · rw [if_neg hbrk]
          cases hns : nbrs current.id with
          | some ns =>
            exact ih _ _ _ (expandNbrs_top_le dist ef ns cands1 top vis htop)
          | none => exact ih _ _ _ htop

/-- C4 (amended): for every distance assignment, neighbor map, entry point,
layer and `ef ≥ 1` (and every loop fuel), the list `search_layer` returns
holds at most `ef` candidates.  The order of that list is the max-heap's
backing-array order (`BinaryHeap::into_iter`), not ascending distance — the
caller `HyperHNSW::search` sorts afterwards; see the counterexample.  (For
`ef = 0` the bound fails: the seeded entry point always remains.) -/
theorem C4_search_layer_at_most_ef (fuel : ℕ) (dist : ℕ → ℚ)
    (nbrs : ℕ → Option (List ℕ)) (ef entry : ℕ) (hef : 1 ≤ ef) :
    (searchLayer fuel dist nbrs ef entry).length ≤ ef := by
  unfold searchLayer
  refine searchLoop_top_le dist nbrs ef fuel _ _ _ ?_
  rw [heapPush_length]
  simpa using hef

/-- Witness for C4 (amended) on the two-node instance. -/
theorem C4_search_layer_at_most_ef_witness :
    (1 : ℕ) ≤ 2 ∧ (searchLayer 10 c4dist c4nbrs 2 0).length ≤ 2 :=
  ⟨by decide, C4_search_layer_at_most_ef 10 c4dist c4nbrs 2 0 (by decide)⟩

/-- C4 (counterexample to "sorted ascending"): on the two-node layer the
returned list is `[(id 1, dist 2), (id 0, dist 1)]` — the max-heap array
order, with the worst candidate first — which is not sorted ascending by
distance.  (Any fuel ≥ 3 gives the same run; the loop exits on an empty
candidate heap.) -/
theorem C4_counterexample_not_sorted :
    (searchLayer 10 c4dist c4nbrs 2 0).map Cand.dist = [2, 1] ∧
      ¬ List.Sorted (· ≤ ·) ((searchLayer 10 c4dist c4nbrs 2 0).map Cand.dist) := by
  constructor
  · decide
  · decide

end Sekejap
